import Mathlib

/-!
Verification development for the extraction-and-incremental-synchronization
engine of `vite-plugin-tailwind-runtime-class`
(src/src/vite-plugin-tailwind-runtime-class.ts).

The TypeScript source is shallowly embedded below:

* `generateRuntimeClassStr` models the `generateRuntimeClass` expander
  (lines 217-232): JavaScript `String.prototype.split(' ')` splits on single
  space characters keeping empty fragments (and yields `[""]` on the empty
  string), which is exactly `String.splitOn " "` in Lean.  `Object.entries`
  iteration order is modelled by association-list order; all inputs in this
  development use non-integer-like keys, for which JavaScript preserves
  insertion order.
* The call-literal extractor (lines 58-63) builds the regular expression
  `generateRuntimeClass\s*\(\s*({[\s\S]*?})\s*\)` and takes the first match's
  capture group.  `findMatch` models `String.prototype.match` for this fixed
  pattern: leftmost starting position wins, and the lazy `[\s\S]*?` makes the
  capture end at the earliest close brace that is followed by optional
  whitespace and a closing parenthesis.
* `normalizeLiteral` models the three `replace` normalization steps of
  lines 65-68, and `jsonParseFlat` models `JSON.parse` restricted to flat
  objects with string values (a non-string value makes the real code throw in
  `generateRuntimeClass` and be caught, observably identical to a parse
  failure: both return the empty `{runtimeClass: ''}` result).
* `handleChange` models the `configureServer` watcher handler (lines 153-171)
  including the output-path/filter guard, the `fileHashes` lookup under
  `filePath` versus the commit under `relativePath`, and the
  persist-only-on-value-change guard.  The content hash, `toRelativePath` and
  the include/exclude filter are parameters of the model.  `extractCount` is
  observational instrumentation counting how many times the handler runs
  `extractRuntimeClassFromFile`, i.e. how often a file is (re)processed.
-/

/-- Distinguished characters, written via code points. -/
def dquoteChar : Char := Char.ofNat 34

def aposChar : Char := Char.ofNat 39

def backslashChar : Char := Char.ofNat 92

def openBraceChar : Char := Char.ofNat 123

def closeBraceChar : Char := Char.ofNat 125

/-- JavaScript `\w` (word character): ASCII letters, digits, underscore. -/
def isWordChar (c : Char) : Bool :=
  (('a' ≤ c && c ≤ 'z') || ('A' ≤ c && c ≤ 'Z') || ('0' ≤ c && c ≤ '9') || c = '_')

/-- JavaScript regular-expression `\s` (whitespace class). -/
def isWsJS (c : Char) : Bool :=
  c = ' ' || c.toNat = 9 || c.toNat = 10 || c.toNat = 11 || c.toNat = 12 || c.toNat = 13 ||
  c.toNat = 160 || c.toNat = 5760 || (8192 ≤ c.toNat && c.toNat ≤ 8202) ||
  c.toNat = 8232 || c.toNat = 8233 || c.toNat = 8239 || c.toNat = 8287 ||
  c.toNat = 12288 || c.toNat = 65279

/-- Association-list lookup; models both `Map.prototype.get` and JavaScript
object property access (absent key gives `undefined`, i.e. `none`). -/
def lookupKey : List (String × String) → String → Option String
  | [], _ => none
  | (k', v') :: m, k => if k' = k then some v' else lookupKey m k

/-- Association-list update; models `Map.prototype.set` and JavaScript object
property assignment: an existing key keeps its position and gets the new
value, a new key is appended. -/
def setKey : List (String × String) → String → String → List (String × String)
  | [], k, v => [(k, v)]
  | (k', v') :: m, k, v => if k' = k then (k, v) :: m else (k', v') :: setKey m k v

/-- Does `pat` occur at the start of `s`? -/
def startsWithL : List Char → List Char → Bool
  | [], _ => true
  | _ :: _, [] => false
  | p :: ps, c :: cs => p = c && startsWithL ps cs

/-- Does `pat` occur as a contiguous substring of `s`?  Models
`String.prototype.includes`. -/
def containsSub : List Char → List Char → Bool
  | [], pat => pat.isEmpty
  | c :: cs, pat => startsWithL pat (c :: cs) || containsSub cs pat

/-- The plugin name constant `VITE_PLUGIN_NAME` (line 7). -/
def VITE_PLUGIN_NAME : String := "vite-plugin-tailwind-runtime-class"

/-- `VIRTUAL_MODULE_ID` (line 32). -/
def VIRTUAL_MODULE_ID : String := "virtual:" ++ VITE_PLUGIN_NAME

/-- JavaScript `String.prototype.split(' ')` at the character-list level:
split at every single space, keeping empty fragments; the empty string yields
one empty fragment. -/
def splitOnSpaceChars : List Char → List (List Char)
  | [] => [[]]
  | c :: cs =>
    if c = ' ' then [] :: splitOnSpaceChars cs
    else
      match splitOnSpaceChars cs with
      | [] => [[c]]
      | t :: ts => (c :: t) :: ts

/-- JavaScript `String.prototype.split(' ')`. -/
def splitOnSpace (s : String) : List String :=
  (splitOnSpaceChars s.toList).map String.mk

/-- One entry of the `Object.entries(obj).forEach` body of
`generateRuntimeClass` (lines 220-226): split the value on single spaces,
prefix each fragment with `size ++ ":"` unless the key is `"default"`, and
join with single spaces. -/
def expandEntry (size className : String) : String :=
  String.intercalate (" ")
    ((splitOnSpace className).map (fun c => if size = "default" then c else size ++ ":" ++ c))

/-- The `runtimeClass` string built by `generateRuntimeClass` (lines 217-232):
each key contributes its expansion followed by one trailing space. -/
def generateRuntimeClassStr (obj : List (String × String)) : String :=
  obj.foldl (fun acc e => acc ++ expandEntry e.1 e.2 ++ " ") ""

/-- Claim C1 (counterexample): for the mapping
`{default: "p-4 bg-white", md: "p-6", lg: "p-8 bg-gray-100"}` the flattened
field produced by the code is NOT exactly
`"p-4 bg-white md:p-6 lg:p-8 lg:bg-gray-100"` — the code appends a trailing
space after every key's contribution. -/
theorem c1_counterexample :
    generateRuntimeClassStr
        [("default", "p-4 bg-white"), ("md", "p-6"), ("lg", "p-8 bg-gray-100")]
      ≠ "p-4 bg-white md:p-6 lg:p-8 lg:bg-gray-100" := by decide

/-- Claim C1 (amended): the flattened field equals
`"p-4 bg-white md:p-6 lg:p-8 lg:bg-gray-100 "` — the claimed token sequence
(key order then split order, default unprefixed) followed by one trailing
space separator. -/
theorem c1_amended :
    generateRuntimeClassStr
        [("default", "p-4 bg-white"), ("md", "p-6"), ("lg", "p-8 bg-gray-100")]
      = "p-4 bg-white md:p-6 lg:p-8 lg:bg-gray-100 " := by decide

/-- Claim C2 (counterexample): `{default: "", sm: "x"}` does NOT yield the
flattened field `"sm:x"` — the empty default value contributes one empty
token, leaving a stray leading separator (and a trailing one). -/
theorem c2_counterexample :
    generateRuntimeClassStr [("default", ""), ("sm", "x")] ≠ "sm:x" := by decide

/-- Claim C2 (amended): the expansion splits each value on single space
characters without collapsing runs: an empty value contributes one empty
token, so `{default: "", sm: "x"}` flattens to `" sm:x "`; and consecutive
spaces yield empty tokens that are emitted as bare `"<key>:"` for non-default
keys, so `{md: "a  b"}` flattens to `"md:a md: md:b "`. -/
theorem c2_amended :
    generateRuntimeClassStr [("default", ""), ("sm", "x")] = " sm:x "
    ∧ generateRuntimeClassStr [("md", "a  b")] = "md:a md: md:b " := by
  exact ⟨by decide, by decide⟩

/-- The marker identifier `generateRuntimeClass.name` used to build the
extraction regular expression (line 59). -/
def markerChars : List Char := "generateRuntimeClass".toList

/-- Is the head of the list a closing parenthesis? -/
def headIsClosingParen : List Char → Bool
  | [] => false
  | c :: _ => c = ')'

/-- The lazy part `[\s\S]*?})\s*\)` of the extraction regular expression,
starting just after the opening brace of the capture group: return the
characters before the earliest closing brace that is followed by optional
whitespace and a closing parenthesis, or `none` if no such closing brace
exists. -/
def lazyInner : List Char → Option (List Char)
  | [] => none
  | c :: cs =>
    if c = closeBraceChar && headIsClosingParen (cs.dropWhile isWsJS) then some []
    else (lazyInner cs).map (fun inner => c :: inner)

/-- Match the regular expression
`generateRuntimeClass\s*\(\s*({[\s\S]*?})\s*\)` at this exact starting
position, returning the capture group (the brace-delimited text). -/
def matchAt (cs : List Char) : Option (List Char) :=
  if startsWithL markerChars cs then
    match (cs.drop markerChars.length).dropWhile isWsJS with
    | '(' :: r1 =>
      match r1.dropWhile isWsJS with
      | d :: r2 =>
        if d = openBraceChar then
          (lazyInner r2).map (fun inner => openBraceChar :: (inner ++ [closeBraceChar]))
        else none
      | [] => none
    | _ => none
  else none

/-- `String.prototype.match` for the fixed extraction regular expression
(lines 58-63): the leftmost starting position that matches wins. -/
def findMatch : List Char → Option (List Char)
  | [] => none
  | c :: cs =>
    match matchAt (c :: cs) with
    | some g => some g
    | none => findMatch cs

/-- The raw captured literal (`match[1]` of line 62) as a string. -/
def extractLiteral (content : String) : Option String :=
  (findMatch content.toList).map (fun g => String.mk g)

/-- A file text whose marker-call argument contains a value with nested
braces immediately followed by a closing parenthesis:
`generateRuntimeClass({ default: 'f({x})' })`. -/
def c4text : String := "generateRuntimeClass(\x7b default: 'f(\x7bx\x7d)' \x7d)"

/-- The full balanced-brace literal of `c4text`, which claim C4 says is
returned: `{ default: 'f({x})' }`. -/
def c4fullLiteral : String := "\x7b default: 'f(\x7bx\x7d)' \x7d"

/-- What the code actually captures from `c4text`: the lazy match stops at
the first closing brace followed by a parenthesis, inside the value:
`{ default: 'f({x}`. -/
def c4truncated : String := "\x7b default: 'f(\x7bx\x7d"

/-- A file text with nested braces in a value where no inner closing brace is
followed by a parenthesis: `generateRuntimeClass({ default: 'a{b}c' })`. -/
def c4nestedOk : String := "generateRuntimeClass(\x7b default: 'a\x7bb\x7dc' \x7d)"

/-- The full literal of `c4nestedOk`. -/
def c4nestedOkLiteral : String := "\x7b default: 'a\x7bb\x7dc' \x7d"

/-- A file text containing two marker calls. -/
def c4twoCalls : String :=
  "generateRuntimeClass(\x7ba: 'x'\x7d) generateRuntimeClass(\x7bb: 'y'\x7d)"

/-- The literal of the first call in `c4twoCalls`. -/
def c4firstLiteral : String := "\x7ba: 'x'\x7d"

/-- Claim C4 (counterexample): on a marker call whose object-literal argument
contains nested braces followed by a closing parenthesis
(`generateRuntimeClass({ default: 'f({x})' })`), the extractor does NOT
return the full balanced-brace substring `{ default: 'f({x})' }`; it returns
the truncated capture `{ default: 'f({x}`. -/
theorem c4_counterexample :
    extractLiteral c4text = some c4truncated
    ∧ extractLiteral c4text ≠ some c4fullLiteral := by
  exact ⟨by decide, by decide⟩

/-- Claim C4 (amended): the capture extends to the earliest closing brace
followed by optional whitespace and a closing parenthesis.  This tolerates
nested braces that are not followed by a parenthesis — for
`generateRuntimeClass({ default: 'a{b}c' })` the full balanced literal
`{ default: 'a{b}c' }` is returned — and matching takes the first marker call
in the file, but it truncates the literal whenever a value contains a closing
brace followed by a parenthesis (see the counterexample). -/
theorem c4_amended :
    extractLiteral c4nestedOk = some c4nestedOkLiteral
    ∧ extractLiteral c4twoCalls = some c4firstLiteral := by
  exact ⟨by decide, by decide⟩

/-- The global replace `.replace(/(\w+):/g, '"$1":')` of line 66, scanning
left to right with an accumulator holding the current (reversed) run of word
characters: a maximal nonempty word run immediately followed by a colon is
wrapped in double quotes; everything else is copied. -/
def quoteKeysAux : List Char → List Char → List Char
  | run, [] => run.reverse
  | run, c :: cs =>
    if isWordChar c then quoteKeysAux (c :: run) cs
    else if c = ':' && !run.isEmpty then
      dquoteChar :: (run.reverse ++ dquoteChar :: ':' :: quoteKeysAux [] cs)
    else run.reverse ++ c :: quoteKeysAux [] cs

/-- `.replace(/(\w+):/g, '"$1":')` (line 66). -/
def quoteKeys (cs : List Char) : List Char := quoteKeysAux [] cs

/-- `.replace(/'/g, '"')` (line 67): every single quote becomes a double
quote. -/
def replaceApos (cs : List Char) : List Char :=
  cs.map (fun c => if c = aposChar then dquoteChar else c)

/-- `.replace(/,\s*}/, '}')` (line 68): the first comma followed by optional
whitespace and a closing brace is removed together with that whitespace,
keeping the brace. -/
def removeTrailingComma : List Char → List Char
  | [] => []
  | c :: cs =>
    if c = ',' then
      match cs.dropWhile isWsJS with
      | d :: rest => if d = closeBraceChar then d :: rest else c :: removeTrailingComma cs
      | [] => c :: removeTrailingComma cs
    else c :: removeTrailingComma cs

/-- The whole normalization chain of lines 65-68, in source order. -/
def normalizeLiteral (cs : List Char) : List Char :=
  removeTrailingComma (replaceApos (quoteKeys cs))

/-- JSON whitespace (as accepted by `JSON.parse` between tokens): space, tab,
line feed, carriage return. -/
def isJsonWs (c : Char) : Bool :=
  c = ' ' || c.toNat = 9 || c.toNat = 10 || c.toNat = 13

/-- Skip JSON whitespace. -/
def skipJsonWs (cs : List Char) : List Char := cs.dropWhile isJsonWs

/-- Hexadecimal digit value. -/
def hexVal (c : Char) : Option Nat :=
  if '0' ≤ c && c ≤ '9' then some (c.toNat - 48)
  else if 'a' ≤ c && c ≤ 'f' then some (c.toNat - 87)
  else if 'A' ≤ c && c ≤ 'F' then some (c.toNat - 55)
  else none

/-- JSON string-body parser (the opening double quote already consumed):
returns the decoded characters and the rest after the closing double quote.
Standard escapes are decoded; `\uXXXX` is decoded as a single code point
(UTF-16 surrogate pairing, irrelevant to every input in this development, is
not modelled); raw control characters are rejected, as `JSON.parse` does. -/
def parseJsonStringBody : List Char → Option (List Char × List Char)
  | [] => none
  | c :: cs =>
    if c = dquoteChar then some ([], cs)
    else if c = backslashChar then
      match cs with
      | [] => none
      | e :: cs2 =>
        if e = dquoteChar then (parseJsonStringBody cs2).map (fun p => (dquoteChar :: p.1, p.2))
        else if e = backslashChar then
          (parseJsonStringBody cs2).map (fun p => (backslashChar :: p.1, p.2))
        else if e = '/' then (parseJsonStringBody cs2).map (fun p => ('/' :: p.1, p.2))
        else if e = 'b' then (parseJsonStringBody cs2).map (fun p => (Char.ofNat 8 :: p.1, p.2))
        else if e = 'f' then (parseJsonStringBody cs2).map (fun p => (Char.ofNat 12 :: p.1, p.2))
        else if e = 'n' then (parseJsonStringBody cs2).map (fun p => (Char.ofNat 10 :: p.1, p.2))
        else if e = 'r' then (parseJsonStringBody cs2).map (fun p => (Char.ofNat 13 :: p.1, p.2))
        else if e = 't' then (parseJsonStringBody cs2).map (fun p => (Char.ofNat 9 :: p.1, p.2))
        else if e = 'u' then
          match cs2 with
          | h1 :: h2 :: h3 :: h4 :: cs3 =>
            match hexVal h1, hexVal h2, hexVal h3, hexVal h4 with
            | some a, some b, some c2, some d =>
              (parseJsonStringBody cs3).map
                (fun p => (Char.ofNat (4096 * a + 256 * b + 16 * c2 + d) :: p.1, p.2))
            | _, _, _, _ => none
          | _ => none
        else none
    else if c.toNat < 32 then none
    else (parseJsonStringBody cs).map (fun p => (c :: p.1, p.2))

/-- Parse a JSON string token (expects a double quote at the head). -/
def parseJsonString : List Char → Option (String × List Char)
  | [] => none
  | c :: cs =>
    if c = dquoteChar then (parseJsonStringBody cs).map (fun p => (String.mk p.1, p.2))
    else none

/-- Parse the member list of a JSON object whose values must all be strings,
positioned after the opening brace (with at least one member); returns the
members in textual order and the rest after the closing brace.  The fuel
argument only bounds the recursion depth; it is always instantiated large
enough (one unit per member suffices). -/
def parseMembers : Nat → List Char → Option (List (String × String) × List Char)
  | 0, _ => none
  | fuel + 1, cs =>
    match parseJsonString (skipJsonWs cs) with
    | none => none
    | some (k, r1) =>
      match skipJsonWs r1 with
      | ':' :: r2 =>
        match parseJsonString (skipJsonWs r2) with
        | none => none
        | some (v, r3) =>
          match skipJsonWs r3 with
          | d :: r4 =>
            if d = ',' then
              match parseMembers fuel r4 with
              | some (ms, r5) => some ((k, v) :: ms, r5)
              | none => none
            else if d = closeBraceChar then some ([(k, v)], r4)
            else none
          | [] => none
      | _ => none

/-- Build a JavaScript object from parsed members in order: later duplicate
keys overwrite in place, as `JSON.parse` does. -/
def objectify (ms : List (String × String)) : List (String × String) :=
  ms.foldl (fun m kv => setKey m kv.1 kv.2) []

/-- `JSON.parse` (line 70) restricted to a flat object with string values.
A value of any other JSON type yields `none`; in the real code such a value
parses and then makes `generateRuntimeClass` throw (`className.split` is not
a function), which the surrounding `try` catches — observably identical to a
parse failure, since both produce the empty `{runtimeClass: ''}` result. -/
def jsonParseFlat (cs : List Char) : Option (List (String × String)) :=
  match skipJsonWs cs with
  | d :: r1 =>
    if d = openBraceChar then
      match skipJsonWs r1 with
      | e :: r2 =>
        if e = closeBraceChar then
          if skipJsonWs r2 = [] then some [] else none
        else
          match parseMembers (cs.length + 1) r1 with
          | some (ms, r3) => if skipJsonWs r3 = [] then some (objectify ms) else none
          | none => none
      | [] => none
    else none
  | [] => none

/-- The normalize-then-parse stage applied to a raw captured literal
(lines 65-70): this is the `parse(rawLiteralText) -> StyleMapping` contract,
`none` meaning `MalformedLiteral`. -/
def parseLiteral (raw : String) : Option (List (String × String)) :=
  jsonParseFlat (normalizeLiteral raw.toList)

/-- `extractRuntimeClassFromFile` (lines 44-77) up to the parsed style
mapping: `none` when the virtual-module specifier is absent, no marker call
matches, or the literal is malformed. -/
def extractParsedObj (content : String) : Option (List (String × String)) :=
  if containsSub content.toList VIRTUAL_MODULE_ID.toList then
    match findMatch content.toList with
    | some grp => jsonParseFlat (normalizeLiteral grp)
    | none => none
  else none

/-- The full result object of `extractRuntimeClassFromFile`: on success the
spread `{...obj, runtimeClass}` (the synthesized key overwrites in place or
is appended), otherwise the initial `{runtimeClass: ''}`. -/
def extractRuntimeClassFromFile (content : String) : List (String × String) :=
  match extractParsedObj content with
  | some obj => setKey obj ("runtimeClass") (generateRuntimeClassStr obj)
  | none => [("runtimeClass", "")]

/-- The `runtimeClass` field of the extraction result, as destructured by the
watcher (line 164). -/
def runtimeClassOf (content : String) : String :=
  (lookupKey (extractRuntimeClassFromFile content) ("runtimeClass")).getD ""

/-- A raw literal with a colon inside a single-quoted value:
`{md: 'hover:bg-red-500'}`. -/
def c5text : String := "\x7bmd: 'hover:bg-red-500'\x7d"

/-- Claim C5 (counterexample): parsing the flat literal
`{md: 'hover:bg-red-500'}` does NOT return the mapping
`md ↦ "hover:bg-red-500"` with the value preserved — the global replacements
of the normalization also rewrite the word-run-before-colon and the
apostrophes inside the value, producing `{"md": ""hover":bg-red-500"}`, which
fails to parse (`MalformedLiteral`). -/
theorem c5_counterexample :
    parseLiteral c5text = none
    ∧ parseLiteral c5text ≠ some [("md", "hover:bg-red-500")] := by
  exact ⟨by decide, by decide⟩

/-- If the marker identifier occurs nowhere in the text, the regular
expression has no match. -/
theorem findMatch_eq_none_of_not_contains (cs : List Char)
    (h : containsSub cs markerChars = false) : findMatch cs = none := by
  induction cs with
  | nil => rfl
  | cons c cs ih =>
    rw [containsSub, Bool.or_eq_false_iff] at h
    rw [findMatch, matchAt, h.1]
    exact ih h.2

/-- A file text where the marker identifier occurs only as a proper substring
of a longer identifier, followed by a call. -/
def c8text : String :=
  "import 'virtual:vite-plugin-tailwind-runtime-class'\nmygenerateRuntimeClass(\x7bdefault: 'a'\x7d)"

/-- Claim C8 (counterexample): for a file in which the marker identifier
appears only inside the longer identifier `mygenerateRuntimeClass`, the
extractor does NOT return the absent/empty result: the regular expression has
no word-boundary anchor, so it matches the embedded marker substring and
extracts the literal, producing `{default: "a", runtimeClass: "a "}`. -/
theorem c8_counterexample :
    extractRuntimeClassFromFile c8text = [("default", "a"), ("runtimeClass", "a ")]
    ∧ extractRuntimeClassFromFile c8text ≠ [("runtimeClass", "")] := by
  exact ⟨by decide, by decide⟩

/-- Claim C8 (amended): matching requires no word boundary — the marker is
found as a raw substring, so a longer identifier ending in the marker name
followed by a call is matched and extracted (see the counterexample); the
extractor is guaranteed to return the empty result only when the marker
identifier does not occur as a substring of the text at all. -/
theorem c8_amended (content : String)
    (h : containsSub content.toList markerChars = false) :
    extractRuntimeClassFromFile content = [("runtimeClass", "")] := by
  have hf := findMatch_eq_none_of_not_contains content.toList h
  simp only [String.toList] at hf
  simp [extractRuntimeClassFromFile, extractParsedObj, hf]

/-- A file text with a well-formed marker call but without the
virtual-module specifier. -/
def c8noMarkerText : String := "const z = require('some-module')\nconst y = 1"

/-- Witness for the amended claim C8 at a concrete text that nowhere contains
the marker identifier. -/
theorem c8_witness :
    containsSub c8noMarkerText.toList markerChars = false
    ∧ extractRuntimeClassFromFile c8noMarkerText = [("runtimeClass", "")] :=
  ⟨by decide, c8_amended c8noMarkerText (by decide)⟩

/-- A file text containing a well-formed marker call but not the
virtual-module import specifier. -/
def c10text : String := "generateRuntimeClass(\x7bdefault: 'p-4'\x7d)"

/-- Claim C10 (confirmed): if the text does not contain the substring
`virtual:vite-plugin-tailwind-runtime-class`, extraction returns the empty
result `{runtimeClass: ''}` regardless of any marker call in the text — the
`content.includes(VIRTUAL_MODULE_ID)` guard (line 56) precedes all matching. -/
theorem c10_confirmed (content : String)
    (h : containsSub content.toList VIRTUAL_MODULE_ID.toList = false) :
    extractRuntimeClassFromFile content = [("runtimeClass", "")] := by
  simp only [String.toList] at h
  simp [extractRuntimeClassFromFile, extractParsedObj, h]

/-- Witness for claim C10 at a concrete text that contains a well-formed
marker call but not the virtual-module specifier. -/
theorem c10_witness :
    containsSub c10text.toList VIRTUAL_MODULE_ID.toList = false
    ∧ extractRuntimeClassFromFile c10text = [("runtimeClass", "")] :=
  ⟨by decide, c10_confirmed c10text (by decide)⟩

/-- The lookup of a key just set yields the new value. -/
theorem lookupKey_setKey_self (m : List (String × String)) (k v : String) :
    lookupKey (setKey m k v) k = some v := by
  induction m with
  | nil => simp [setKey, lookupKey]
  | cons kv m ih =>
    by_cases h : kv.1 = k
    · simp [setKey, lookupKey, h]
    · simp [setKey, lookupKey, h, ih]

/-- Setting one key does not change the lookup of another. -/
theorem lookupKey_setKey_other (m : List (String × String)) (k k' v : String)
    (h : k' ≠ k) : lookupKey (setKey m k' v) k = lookupKey m k := by
  have h' : ¬(k = k') := fun he => h he.symm
  induction m with
  | nil => simp [setKey, lookupKey, h]
  | cons kv m ih =>
    by_cases h2 : kv.1 = k'
    · simp [setKey, lookupKey, h2, h]
    · by_cases h3 : kv.1 = k <;> simp [setKey, lookupKey, h2, h3, ih, h, h']

/-- Setting a key to a value it does not currently have changes the map. -/
theorem setKey_ne_of_lookup_ne (m : List (String × String)) (k v : String)
    (h : lookupKey m k ≠ some v) : setKey m k v ≠ m := by
  intro he
  apply h
  have hs := lookupKey_setKey_self m k v
  rw [he] at hs
  exact hs

/-- In-memory state of one plugin instance during a watch session:
`fileHashes` is the `Map` of line 37, `classMap` the aggregate store object
of line 38, `persisted` the artifact content most recently written by
`writeClassObjToDesk`, `persistCount` the number of artifact writes, and
`extractCount` observational instrumentation counting how often the handler
ran `extractRuntimeClassFromFile` (i.e. reprocessed a file). -/
structure PluginState where
  fileHashes : List (String × String)
  classMap : List (String × String)
  persisted : List (String × String)
  persistCount : Nat
  extractCount : Nat

/-- The `watcher.on('change', ...)` handler of `configureServer`
(lines 153-171).  `rel` models `toRelativePath` (which depends on the ambient
working directory), `outP` the `relativeOutputPath`, `flt` the
include/exclude filter, `hash` the content fingerprint (`getFileHash`), and
`content` the file's text (`none` when the file cannot be read, in which case
`getFileInfo` yields no usable hash and the handler does nothing).  Exactly
as in the source, the previous fingerprint is looked up under the raw watcher
path `filePath` (line 159) but the new fingerprint is committed under
`rel filePath` (line 163), while the class map is keyed by `filePath`
(lines 165-167); the artifact is rewritten only when the extracted
`runtimeClass` differs from the stored value (lines 166-169). -/
def handleChange (rel : String → String) (outP : String) (flt : String → Bool)
    (hash : String → String) (s : PluginState) (filePath : String)
    (content : Option String) : PluginState :=
  if rel filePath = outP ∨ flt filePath = false then s
  else
    match content with
    | none => s
    | some c =>
      if lookupKey s.fileHashes filePath = some (hash c) then s
      else if lookupKey s.classMap filePath = some (runtimeClassOf c) then
        { s with
            fileHashes := setKey s.fileHashes (rel filePath) (hash c)
            extractCount := s.extractCount + 1 }
      else
        { fileHashes := setKey s.fileHashes (rel filePath) (hash c)
          classMap := setKey s.classMap filePath (runtimeClassOf c)
          persisted := setKey s.classMap filePath (runtimeClassOf c)
          persistCount := s.persistCount + 1
          extractCount := s.extractCount + 1 }

/-- After a change event that passes the guard and the fingerprint check, the
stored entry for the file equals the freshly extracted `runtimeClass`
(whether or not a write was needed). -/
theorem handleChange_lookup (rel : String → String) (outP : String)
    (flt : String → Bool) (hash : String → String) (s : PluginState)
    (p c : String)
    (h1 : ¬(rel p = outP ∨ flt p = false))
    (h2 : lookupKey s.fileHashes p ≠ some (hash c)) :
    lookupKey (handleChange rel outP flt hash s p (some c)).classMap p
      = some (runtimeClassOf c) := by
  by_cases h3 : lookupKey s.classMap p = some (runtimeClassOf c)
  · simp only [handleChange, if_neg h1, if_neg h2, if_pos h3]
    exact h3
  · simp only [handleChange, if_neg h1, if_neg h2, if_neg h3]
    exact lookupKey_setKey_self s.classMap p (runtimeClassOf c)

/-- Identity path canonicalization (a watcher path already relative to the
working directory). -/
def relIdentity : String → String := fun p => p

/-- A filter that accepts every file. -/
def allFilter : String → Bool := fun _ => true

/-- A deterministic content fingerprint (the model's stand-in for the
truncated md5 of `getFileHash`; only determinism matters here). -/
def idHash : String → String := fun s => s

/-- The configured artifact output path used in the concrete scenarios. -/
def outPath : String := "out.json"

/-- A state in which file `a.ts` already contributes the value `"p-4 "` to
the store and the artifact. -/
def stateC3 : PluginState :=
  ⟨[], [("a.ts", "p-4 ")], [("a.ts", "p-4 ")], 0, 0⟩

/-- File content whose marker-call argument does not parse into a flat string
mapping (`MalformedLiteral`): `generateRuntimeClass({ sm: [1,2] })`. -/
def c3content : String :=
  "import 'virtual:vite-plugin-tailwind-runtime-class'\ngenerateRuntimeClass(\x7b sm: [1,2] \x7d)"

/-- The state after delivering the malformed-literal change event for `a.ts`
to `stateC3`. -/
def c3after : PluginState :=
  handleChange relIdentity outPath allFilter idHash stateC3 ("a.ts") (some c3content)

/-- Claim C3 (counterexample): processing a change event whose marker-call
argument fails to parse does NOT leave the prior store entry for that file
unchanged — starting from a store with `a.ts ↦ "p-4 "`, the handler
overwrites the entry with the empty string and persists that, so the
previously stored value is gone from both the store and the artifact. -/
theorem c3_counterexample :
    stateC3.classMap = [("a.ts", "p-4 ")]
    ∧ lookupKey c3after.classMap ("a.ts") = some ""
    ∧ lookupKey c3after.persisted ("a.ts") = some ""
    ∧ c3after.persistCount = 1 := by
  exact ⟨rfl, by decide, by decide, by decide⟩

/-- Claim C3 (amended): when the marker call is found but its argument fails
to parse into a flat string mapping, the change handler treats the file as
having the empty flattened output: it stores the empty string for that file
identity (overwriting any previously stored value, and persisting the store
if the prior value differed), rather than leaving the prior entry untouched. -/
theorem c3_amended (rel : String → String) (outP : String) (flt : String → Bool)
    (hash : String → String) (s : PluginState) (p c : String)
    (h1 : ¬(rel p = outP ∨ flt p = false))
    (h2 : lookupKey s.fileHashes p ≠ some (hash c))
    (h3 : extractParsedObj c = none) :
    lookupKey (handleChange rel outP flt hash s p (some c)).classMap p = some "" := by
  have hrc : runtimeClassOf c = "" := by
    simp [runtimeClassOf, extractRuntimeClassFromFile, h3, lookupKey]
  have hl := handleChange_lookup rel outP flt hash s p c h1 h2
  rw [hrc] at hl
  exact hl

/-- Witness for the amended claim C3: the hypotheses hold for the concrete
malformed-literal scenario and the conclusion follows by the theorem. -/
theorem c3_witness :
    (¬(relIdentity ("a.ts") = outPath ∨ allFilter ("a.ts") = false))
    ∧ lookupKey stateC3.fileHashes ("a.ts") ≠ some (idHash c3content)
    ∧ extractParsedObj c3content = none
    ∧ lookupKey (handleChange relIdentity outPath allFilter idHash stateC3 ("a.ts")
        (some c3content)).classMap ("a.ts") = some "" :=
  ⟨by decide, by decide, by decide,
    c3_amended relIdentity outPath allFilter idHash stateC3 ("a.ts") c3content
      (by decide) (by decide) (by decide)⟩

/-- A state in which file `b.ts` already contributes the value `"p-2 "`. -/
def stateC7 : PluginState :=
  ⟨[], [("b.ts", "p-2 ")], [("b.ts", "p-2 ")], 0, 0⟩

/-- File content with no marker call (and no virtual-module specifier): the
extraction result carries no extractable content. -/
def c7content : String := "export const x = 1"

/-- The state after delivering the no-marker change event for `b.ts` to
`stateC7`. -/
def c7after : PluginState :=
  handleChange relIdentity outPath allFilter idHash stateC7 ("b.ts") (some c7content)

/-- Claim C7 (counterexample): when a changed file's extraction result
carries no extractable content, the store entry for that file is NOT removed
— the handler stores the empty string under the file's key, so the file still
contributes an entry (with value `""`) to the store and to the persisted
artifact. -/
theorem c7_counterexample :
    stateC7.classMap = [("b.ts", "p-2 ")]
    ∧ lookupKey c7after.classMap ("b.ts") = some ""
    ∧ lookupKey c7after.persisted ("b.ts") = some "" := by
  exact ⟨rfl, by decide, by decide⟩

/-- Claim C7 (amended): when the extraction result of a changed file carries
no extractable content (empty `runtimeClass`), the store update sets the
entry for that file identity to the empty string instead of removing it: the
file's key remains present, mapped to `""`, in the store and hence in the
persisted artifact. -/
theorem c7_amended (rel : String → String) (outP : String) (flt : String → Bool)
    (hash : String → String) (s : PluginState) (p c : String)
    (h1 : ¬(rel p = outP ∨ flt p = false))
    (h2 : lookupKey s.fileHashes p ≠ some (hash c))
    (h3 : runtimeClassOf c = "") :
    lookupKey (handleChange rel outP flt hash s p (some c)).classMap p = some "" := by
  have hl := handleChange_lookup rel outP flt hash s p c h1 h2
  rw [h3] at hl
  exact hl

/-- Witness for the amended claim C7 at the concrete no-marker scenario. -/
theorem c7_witness :
    (¬(relIdentity ("b.ts") = outPath ∨ allFilter ("b.ts") = false))
    ∧ lookupKey stateC7.fileHashes ("b.ts") ≠ some (idHash c7content)
    ∧ runtimeClassOf c7content = ""
    ∧ lookupKey (handleChange relIdentity outPath allFilter idHash stateC7 ("b.ts")
        (some c7content)).classMap ("b.ts") = some "" :=
  ⟨by decide, by decide, by decide,
    c7_amended relIdentity outPath allFilter idHash stateC7 ("b.ts") c7content
      (by decide) (by decide) (by decide)⟩

/-- `toRelativePath` as seen by a watch session with working directory
`/proj`: the watcher's absolute path `/proj/a.ts` maps to `a.ts`. -/
def rel6 : String → String := fun p => if p = "/proj/a.ts" then "a.ts" else p

/-- The empty initial session state. -/
def initState : PluginState := ⟨[], [], [], 0, 0⟩

/-- Some file content, fixed across both deliveries. -/
def c6content : String := "const x = 1"

/-- Claim C6 (code bug): the handler looks the previous fingerprint up under
the raw watcher path (`fileHashes.get(filePath)`, line 159) but commits it
under the relative path (`fileHashes.set(relativePath, ...)`, line 163).
For an absolute watcher path the committed fingerprint is therefore never
found again: delivering the same `(path, content)` event twice runs the
extraction twice (`extractCount = 2`) even though the fingerprint is
unchanged, where the claim (and the evident intent of the
`fileInfo.hash === oldHash` guard) requires the second event to be skipped —
as indeed happens when the two keys coincide (`extractCount = 1` with the
identity canonicalization). -/
theorem c6_bug :
    (handleChange rel6 outPath allFilter idHash
        (handleChange rel6 outPath allFilter idHash initState ("/proj/a.ts")
          (some c6content))
        ("/proj/a.ts") (some c6content)).extractCount = 2
    ∧ (handleChange relIdentity outPath allFilter idHash
        (handleChange relIdentity outPath allFilter idHash initState ("/proj/a.ts")
          (some c6content))
        ("/proj/a.ts") (some c6content)).extractCount = 1 := by
  exact ⟨by decide, by decide⟩

/-- Claim C9 (confirmed): the artifact write is tied to actual store change.
First conjunct: delivering the same `(path, content)` change event twice in
sequence never persists on the second delivery, so the pair causes at most
one write (exactly one whenever the first delivery changed the store).
Second conjunct: a single delivery bumps `persistCount` exactly when it
changed the visible content of the aggregate store, mirroring the
`if (oldValue !== runtimeClass)` guard of lines 166-169. -/
theorem c9_confirmed (rel : String → String) (outP : String) (flt : String → Bool)
    (hash : String → String) (s : PluginState) (p : String) (c : Option String) :
    (handleChange rel outP flt hash (handleChange rel outP flt hash s p c) p c).persistCount
      = (handleChange rel outP flt hash s p c).persistCount
    ∧ (handleChange rel outP flt hash s p c).persistCount
      = s.persistCount
          + (if (handleChange rel outP flt hash s p c).classMap = s.classMap then 0 else 1) := by
  by_cases h1 : rel p = outP ∨ flt p = false
  · simp [handleChange, h1]
  · cases c with
    | none => simp [handleChange, h1]
    | some c =>
      by_cases h2 : lookupKey s.fileHashes p = some (hash c)
      · simp [handleChange, h1, h2]
      · by_cases h3 : lookupKey s.classMap p = some (runtimeClassOf c)
        · constructor
          · by_cases h4 : rel p = p
            · have h5 : lookupKey (setKey s.fileHashes (rel p) (hash c)) p
                  = some (hash c) := by
                rw [h4]
                exact lookupKey_setKey_self s.fileHashes p (hash c)
              simp [handleChange, h1, h2, h3, h5]
            · have h5 : lookupKey (setKey s.fileHashes (rel p) (hash c)) p
                  = lookupKey s.fileHashes p :=
                lookupKey_setKey_other s.fileHashes p (rel p) (hash c) h4
              simp [handleChange, h1, h2, h3, h5]
          · simp [handleChange, h1, h2, h3]
        · have hne : setKey s.classMap p (runtimeClassOf c) ≠ s.classMap :=
            setKey_ne_of_lookup_ne s.classMap p (runtimeClassOf c) h3
          constructor
          · by_cases h4 : rel p = p
            · have h5 : lookupKey (setKey s.fileHashes (rel p) (hash c)) p
                  = some (hash c) := by
                rw [h4]
                exact lookupKey_setKey_self s.fileHashes p (hash c)
              simp [handleChange, h1, h2, h3, h5]
            · have h5 : lookupKey (setKey s.fileHashes (rel p) (hash c)) p
                  = lookupKey s.fileHashes p :=
                lookupKey_setKey_other s.fileHashes p (rel p) (hash c) h4
              simp [handleChange, h1, h2, h3, h5, lookupKey_setKey_self]
          · simp [handleChange, h1, h2, h3, hne]

/-- Value characters for which the normalization of lines 65-68 is
content-preserving: printable, and none of colon (rewritten by the key-quoting
replacement), quote characters (rewritten by the quote replacement or
terminating the JSON string early), backslash (a JSON escape introducer), or
closing brace (could form a spurious `,\s*}` match or end the capture). -/
def validValueChar (c : Char) : Bool :=
  32 ≤ c.toNat && !(c = ':') && !(c = aposChar) && !(c = dquoteChar) &&
    !(c = backslashChar) && !(c = closeBraceChar)

/-- A key the spec calls an unquoted identifier key: nonempty, all word
characters. -/
def validKey (k : String) : Bool :=
  !k.toList.isEmpty && k.toList.all isWordChar

/-- All value characters are normalization-safe. -/
def validValue (v : String) : Bool :=
  v.toList.all validValueChar

/-- One `key: 'value'` (or `key: "value"`) source entry, with quote character
`q`. -/
def renderEntryChars (q : Char) (kv : String × String) : List Char :=
  kv.1.toList ++ ':' :: ' ' :: q :: (kv.2.toList ++ [q])

/-- Comma-space separated source entries. -/
def renderMembersChars (q : Char) : List (String × String) → List Char
  | [] => []
  | [kv] => renderEntryChars q kv
  | kv :: rest => renderEntryChars q kv ++ ',' :: ' ' :: renderMembersChars q rest

/-- A raw flat object literal with unquoted identifier keys, `q`-quoted
values and an optional trailing comma: the input shape described by claim C5. -/
def renderLiteralChars (q : Char) (entries : List (String × String)) (tc : Bool) : List Char :=
  openBraceChar ::
    (renderMembersChars q entries ++
      (if tc && !entries.isEmpty then [','] else []) ++ [closeBraceChar])

/-- `renderLiteralChars` as a string. -/
def renderLiteral (q : Char) (entries : List (String × String)) (tc : Bool) : String :=
  String.mk (renderLiteralChars q entries tc)

/-- The shape of one entry after the key-quoting replacement (line 66): the
key is double-quoted, the value still carries its original quotes. -/
def qkEntryChars (q : Char) (kv : String × String) : List Char :=
  dquoteChar :: kv.1.toList ++ dquoteChar :: ':' :: ' ' :: q :: (kv.2.toList ++ [q])

/-- Members after the key-quoting replacement. -/
def qkMembersChars (q : Char) : List (String × String) → List Char
  | [] => []
  | [kv] => qkEntryChars q kv
  | kv :: rest => qkEntryChars q kv ++ ',' :: ' ' :: qkMembersChars q rest

/-- The shape of one entry after both replacements: strict JSON. -/
def normEntryChars (kv : String × String) : List Char :=
  dquoteChar :: kv.1.toList ++ dquoteChar :: ':' :: ' ' :: dquoteChar :: (kv.2.toList ++ [dquoteChar])

/-- Members in strict JSON shape. -/
def normMembersChars : List (String × String) → List Char
  | [] => []
  | [kv] => normEntryChars kv
  | kv :: rest => normEntryChars kv ++ ',' :: ' ' :: normMembersChars rest

/-- Word characters have code points at least 32. -/
theorem isWordChar_ge_32 (c : Char) (h : isWordChar c = true) : 32 ≤ c.toNat := by
  rw [isWordChar] at h
  simp only [Bool.or_eq_true, Bool.and_eq_true, decide_eq_true_eq] at h
  rcases h with ((⟨h1, _⟩ | ⟨h1, _⟩) | ⟨h1, _⟩) | h1
  · have h2 : ('a' : Char).val.toNat ≤ c.val.toNat := h1
    have h3 : ('a' : Char).val.toNat = 97 := rfl
    rw [h3] at h2
    exact le_trans (by omega) h2
  · have h2 : ('A' : Char).val.toNat ≤ c.val.toNat := h1
    have h3 : ('A' : Char).val.toNat = 65 := rfl
    rw [h3] at h2
    exact le_trans (by omega) h2
  · have h2 : ('0' : Char).val.toNat ≤ c.val.toNat := h1
    have h3 : ('0' : Char).val.toNat = 48 := rfl
    rw [h3] at h2
    exact le_trans (by omega) h2
  · subst h1
    decide

/-- A word character is none of the punctuation characters the normalization
and parsing lemmas care about, and is not a control character. -/
theorem isWordChar_spec (c : Char) (h : isWordChar c = true) :
    ¬(c.toNat < 32) ∧ c ≠ ':' ∧ c ≠ ',' ∧ c ≠ aposChar ∧ c ≠ dquoteChar ∧
      c ≠ backslashChar ∧ c ≠ closeBraceChar := by
  have h32 := isWordChar_ge_32 c h
  refine ⟨by omega, ?_, ?_, ?_, ?_, ?_, ?_⟩ <;>
    · intro he
      rw [he] at h
      exact absurd h (by decide)

/-- Unpacking `validValueChar`. -/
theorem validValueChar_spec (c : Char) (h : validValueChar c = true) :
    ¬(c.toNat < 32) ∧ c ≠ ':' ∧ c ≠ aposChar ∧ c ≠ dquoteChar ∧
      c ≠ backslashChar ∧ c ≠ closeBraceChar := by
  rw [validValueChar] at h
  simp only [Bool.and_eq_true, Bool.not_eq_true', decide_eq_true_eq,
    decide_eq_false_iff_not] at h
  exact ⟨by omega, h.1.1.1.1.2, h.1.1.1.2, h.1.1.2, h.1.2, h.2⟩

/-- Unpacking `validKey`. -/
theorem validKey_spec (k : String) (h : validKey k = true) :
    k.toList ≠ [] ∧ ∀ c ∈ k.toList, isWordChar c = true := by
  rw [validKey] at h
  simp only [Bool.and_eq_true, Bool.not_eq_true', List.all_eq_true] at h
  exact ⟨List.isEmpty_eq_false.mp h.1, h.2⟩

/-- Step: a word character is pushed onto the accumulated run. -/
theorem quoteKeysAux_cons_word (run : List Char) (c : Char) (cs : List Char)
    (h : isWordChar c = true) :
    quoteKeysAux run (c :: cs) = quoteKeysAux (c :: run) cs := by
  rw [quoteKeysAux]
  simp [h]

/-- Step: a colon after a nonempty run quotes the run. -/
theorem quoteKeysAux_cons_colon (r : Char) (rs cs : List Char) :
    quoteKeysAux (r :: rs) (':' :: cs)
      = dquoteChar :: ((r :: rs).reverse ++ dquoteChar :: ':' :: quoteKeysAux [] cs) := by
  rw [quoteKeysAux]
  simp [(by decide : isWordChar ':' = false)]

/-- Step: a non-word character other than a colon flushes the run and passes
through. -/
theorem quoteKeysAux_cons_other (run : List Char) (c : Char) (cs : List Char)
    (h1 : isWordChar c = false) (h2 : c ≠ ':') :
    quoteKeysAux run (c :: cs) = run.reverse ++ c :: quoteKeysAux [] cs := by
  rw [quoteKeysAux]
  simp [h1, h2]

/-- Step: with an empty accumulated run, any non-word character passes
through. -/
theorem quoteKeysAux_cons_nilrun (c : Char) (cs : List Char)
    (h1 : isWordChar c = false) :
    quoteKeysAux [] (c :: cs) = c :: quoteKeysAux [] cs := by
  rw [quoteKeysAux]
  simp [h1]

/-- `quoteKeysAux` wraps a word run followed by a colon (together with the
already-accumulated run) in double quotes. -/
theorem quoteKeysAux_key : ∀ (k run rest : List Char),
    (∀ c ∈ k, isWordChar c = true) → (run ≠ [] ∨ k ≠ []) →
    quoteKeysAux run (k ++ ':' :: rest)
      = dquoteChar :: ((run.reverse ++ k) ++ dquoteChar :: ':' :: quoteKeysAux [] rest) := by
  intro k
  induction k with
  | nil =>
    intro run rest _ h2
    have hrun : run ≠ [] := h2.resolve_right (fun hc => hc rfl)
    obtain ⟨r, rs, hr⟩ : ∃ r rs, run = r :: rs := by
      cases run with
      | nil => exact absurd rfl hrun
      | cons r rs => exact ⟨r, rs, rfl⟩
    subst hr
    rw [List.nil_append, quoteKeysAux_cons_colon]
    simp
  | cons c k ih =>
    intro run rest h1 _
    have hc : isWordChar c = true := h1 c (List.mem_cons_self c k)
    have hk : ∀ d ∈ k, isWordChar d = true := fun d hd => h1 d (List.mem_cons_of_mem c hd)
    rw [List.cons_append, quoteKeysAux_cons_word run c _ hc]
    rw [ih (c :: run) rest hk (Or.inl (List.cons_ne_nil c run))]
    simp [List.append_assoc]

/-- `quoteKeysAux` passes a colon-free segment ending in a non-word character
through unchanged, flushing the accumulated run first. -/
theorem quoteKeysAux_seg : ∀ (s : List Char) (d : Char) (run rest : List Char),
    (∀ c ∈ s, c ≠ ':') → d ≠ ':' → isWordChar d = false →
    quoteKeysAux run (s ++ d :: rest)
      = run.reverse ++ (s ++ d :: quoteKeysAux [] rest) := by
  intro s
  induction s with
  | nil =>
    intro d run rest _ hd hw
    rw [List.nil_append, quoteKeysAux_cons_other run d rest hw hd]
    simp
  | cons c s ih =>
    intro d run rest h1 hd hw
    have hc : c ≠ ':' := h1 c (List.mem_cons_self c s)
    have hs : ∀ e ∈ s, e ≠ ':' := fun e he => h1 e (List.mem_cons_of_mem c he)
    by_cases hcw : isWordChar c = true
    · rw [List.cons_append, quoteKeysAux_cons_word run c _ hcw]
      rw [ih d (c :: run) rest hs hd hw]
      simp [List.append_assoc]
    · have hcw2 : isWordChar c = false := by simpa using hcw
      rw [List.cons_append, quoteKeysAux_cons_other run c _ hcw2 hc]
      rw [ih d [] rest hs hd hw]
      simp

/-- One rendered entry, under the key-quoting replacement, becomes its
`qkEntryChars` shape, independently of what follows. -/
theorem quoteKeys_entry (q : Char) (kv : String × String) (rest : List Char)
    (hq : q = aposChar ∨ q = dquoteChar)
    (hk : validKey kv.1 = true) (hv : validValue kv.2 = true) :
    quoteKeysAux [] (renderEntryChars q kv ++ rest)
      = qkEntryChars q kv ++ quoteKeysAux [] rest := by
  obtain ⟨hk1, hk2⟩ := validKey_spec kv.1 hk
  have hv2 : ∀ c ∈ kv.2.toList, validValueChar c = true := by
    rw [validValue] at hv
    exact List.all_eq_true.mp hv
  have hq1 : q ≠ ':' := by rcases hq with h | h <;> subst h <;> decide
  have hq2 : isWordChar q = false := by rcases hq with h | h <;> subst h <;> decide
  have hs : ∀ c ∈ (' ' :: q :: kv.2.toList), c ≠ ':' := by
    intro c hcm
    simp only [List.mem_cons] at hcm
    rcases hcm with rfl | rfl | hcm
    · decide
    · exact hq1
    · exact (validValueChar_spec c (hv2 c hcm)).2.1
  have h1 : renderEntryChars q kv ++ rest
      = kv.1.toList ++ ':' :: ((' ' :: q :: kv.2.toList) ++ q :: rest) := by
    simp [renderEntryChars]
  rw [h1, quoteKeysAux_key kv.1.toList [] _ hk2 (Or.inr hk1)]
  rw [quoteKeysAux_seg (' ' :: q :: kv.2.toList) q [] rest hs hq1 hq2]
  simp [qkEntryChars, List.append_assoc]

/-- Rendered members, under the key-quoting replacement, become their
`qkMembersChars` shape. -/
theorem quoteKeys_members (q : Char) : ∀ (entries : List (String × String)) (rest : List Char),
    (q = aposChar ∨ q = dquoteChar) →
    (∀ kv ∈ entries, validKey kv.1 = true) →
    (∀ kv ∈ entries, validValue kv.2 = true) →
    quoteKeysAux [] (renderMembersChars q entries ++ rest)
      = qkMembersChars q entries ++ quoteKeysAux [] rest := by
  intro entries
  induction entries with
  | nil => intro rest _ _ _; simp [renderMembersChars, qkMembersChars]
  | cons kv tail ih =>
    intro rest hq hk hv
    cases tail with
    | nil =>
      simp only [renderMembersChars, qkMembersChars]
      exact quoteKeys_entry q kv rest hq (hk kv (List.mem_cons_self kv []))
        (hv kv (List.mem_cons_self kv []))
    | cons kv2 tail2 =>
      simp only [renderMembersChars, qkMembersChars]
      have h1 : (renderEntryChars q kv ++ ',' :: ' ' :: renderMembersChars q (kv2 :: tail2)) ++ rest
          = renderEntryChars q kv ++ (',' :: ' ' :: (renderMembersChars q (kv2 :: tail2) ++ rest)) := by
        simp [List.append_assoc]
      rw [h1, quoteKeys_entry q kv _ hq (hk kv (List.mem_cons_self kv (kv2 :: tail2)))
        (hv kv (List.mem_cons_self kv (kv2 :: tail2)))]
      rw [quoteKeysAux_cons_nilrun ',' _ (by decide)]
      rw [quoteKeysAux_cons_nilrun ' ' _ (by decide)]
      rw [ih rest hq (fun x hx => hk x (List.mem_cons_of_mem kv hx))
        (fun x hx => hv x (List.mem_cons_of_mem kv hx))]
      simp [List.append_assoc]

/-- The key-quoting replacement on a whole rendered literal. -/
theorem quoteKeys_render (q : Char) (entries : List (String × String)) (tc : Bool)
    (hq : q = aposChar ∨ q = dquoteChar)
    (hk : ∀ kv ∈ entries, validKey kv.1 = true)
    (hv : ∀ kv ∈ entries, validValue kv.2 = true) :
    quoteKeys (renderLiteralChars q entries tc)
      = openBraceChar ::
          (qkMembersChars q entries ++
            ((if tc && !entries.isEmpty then [','] else []) ++ [closeBraceChar])) := by
  rw [quoteKeys, renderLiteralChars]
  rw [quoteKeysAux_cons_nilrun openBraceChar _ (by decide)]
  have h1 : renderMembersChars q entries ++
        (if tc && !entries.isEmpty then [','] else []) ++ [closeBraceChar]
      = renderMembersChars q entries ++
          ((if tc && !entries.isEmpty then [','] else []) ++ [closeBraceChar]) := by
    simp [List.append_assoc]
  rw [h1, quoteKeys_members q entries _ hq hk hv]
  congr 1
  congr 1
  by_cases htc : (tc && !entries.isEmpty) = true
  · rw [if_pos htc]
    decide
  · rw [if_neg htc]
    decide

/-- The quote replacement is the identity on apostrophe-free text. -/
theorem replaceApos_id : ∀ (l : List Char), (∀ c ∈ l, c ≠ aposChar) → replaceApos l = l := by
  intro l
  induction l with
  | nil => intro _; rfl
  | cons c t ih =>
    intro h
    have hc : c ≠ aposChar := h c (List.mem_cons_self c t)
    have ht := ih (fun d hd => h d (List.mem_cons_of_mem c hd))
    simp only [replaceApos, List.map_cons] at ht ⊢
    simp [hc, ht]

/-- The quote replacement turns one `qkEntryChars` entry into strict JSON. -/
theorem replaceApos_entry (q : Char) (kv : String × String)
    (hq : q = aposChar ∨ q = dquoteChar)
    (hk : validKey kv.1 = true) (hv : validValue kv.2 = true) :
    replaceApos (qkEntryChars q kv) = normEntryChars kv := by
  obtain ⟨_, hk2⟩ := validKey_spec kv.1 hk
  have hv2 : ∀ c ∈ kv.2.toList, validValueChar c = true := by
    rw [validValue] at hv
    exact List.all_eq_true.mp hv
  have hkid := replaceApos_id kv.1.toList
    (fun c hc => (isWordChar_spec c (hk2 c hc)).2.2.2.1)
  have hvid := replaceApos_id kv.2.toList
    (fun c hc => (validValueChar_spec c (hv2 c hc)).2.2.1)
  have hqd : (if q = aposChar then dquoteChar else q) = dquoteChar := by
    rcases hq with h | h <;> subst h <;> simp
  simp only [replaceApos] at hkid hvid
  simp only [replaceApos, qkEntryChars, normEntryChars, List.map_append, List.map_cons,
    List.map_nil]
  rw [hkid, hvid]
  simp [hqd, (by decide : dquoteChar ≠ aposChar), (by decide : (':' : Char) ≠ aposChar),
    (by decide : (' ' : Char) ≠ aposChar)]

/-- The quote replacement turns `qkMembersChars` into strict JSON members. -/
theorem replaceApos_members (q : Char) : ∀ (entries : List (String × String)),
    (q = aposChar ∨ q = dquoteChar) →
    (∀ kv ∈ entries, validKey kv.1 = true) →
    (∀ kv ∈ entries, validValue kv.2 = true) →
    replaceApos (qkMembersChars q entries) = normMembersChars entries := by
  intro entries
  induction entries with
  | nil => intro _ _ _; rfl
  | cons kv tail ih =>
    intro hq hk hv
    cases tail with
    | nil =>
      simp only [qkMembersChars, normMembersChars]
      exact replaceApos_entry q kv hq (hk kv (List.mem_cons_self kv []))
        (hv kv (List.mem_cons_self kv []))
    | cons kv2 tail2 =>
      simp only [qkMembersChars, normMembersChars]
      have he := replaceApos_entry q kv hq (hk kv (List.mem_cons_self kv (kv2 :: tail2)))
        (hv kv (List.mem_cons_self kv (kv2 :: tail2)))
      have ht := ih hq (fun x hx => hk x (List.mem_cons_of_mem kv hx))
        (fun x hx => hv x (List.mem_cons_of_mem kv hx))
      simp only [replaceApos, List.map_append, List.map_cons] at he ht ⊢
      rw [he, ht]
      simp [(by decide : (',' : Char) ≠ aposChar), (by decide : (' ' : Char) ≠ aposChar)]

/-- Step: a non-comma character passes through the trailing-comma removal. -/
theorem rTC_cons_ne (c : Char) (cs : List Char) (h : c ≠ ',') :
    removeTrailingComma (c :: cs) = c :: removeTrailingComma cs := by
  rw [removeTrailingComma]
  simp [h]

/-- Step: a comma whose next non-whitespace character is not a closing brace
passes through. -/
theorem rTC_cons_comma (cs : List Char)
    (h : ∀ d rest, cs.dropWhile isWsJS = d :: rest → d ≠ closeBraceChar) :
    removeTrailingComma (',' :: cs) = ',' :: removeTrailingComma cs := by
  rw [removeTrailingComma]
  rcases hdw : cs.dropWhile isWsJS with _ | ⟨d, rest⟩
  · simp [hdw]
  · have hd := h d rest hdw
    simp [hdw, hd]

/-- Step: a comma directly followed (modulo whitespace) by a closing brace is
removed together with that whitespace. -/
theorem rTC_cons_comma_brace (cs rest : List Char)
    (h : cs.dropWhile isWsJS = closeBraceChar :: rest) :
    removeTrailingComma (',' :: cs) = closeBraceChar :: rest := by
  rw [removeTrailingComma]
  simp [h]

/-- Scanning forward from inside a value, the first non-whitespace character
is never a closing brace: the closing double quote shields the rest. -/
theorem firstNonWs_shield : ∀ (b rest : List Char),
    (∀ c ∈ b, c ≠ closeBraceChar) → ∀ d tail,
    (b ++ dquoteChar :: rest).dropWhile isWsJS = d :: tail → d ≠ closeBraceChar := by
  intro b
  induction b with
  | nil =>
    intro rest _ d tail hd
    rw [List.nil_append, List.dropWhile_cons] at hd
    rw [if_neg (by decide : ¬(isWsJS dquoteChar = true))] at hd
    injection hd with h1 _
    rw [← h1]
    decide
  | cons c b ih =>
    intro rest hb d tail hd
    rw [List.cons_append, List.dropWhile_cons] at hd
    by_cases hw : isWsJS c = true
    · rw [if_pos hw] at hd
      exact ih rest (fun e he => hb e (List.mem_cons_of_mem c he)) d tail hd
    · rw [if_neg hw] at hd
      have hdc : c = d := (List.cons.injEq c _ d tail).mp hd |>.1
      rw [← hdc]
      exact hb c (List.mem_cons_self c b)

/-- The trailing-comma removal passes a value (arbitrary valid characters,
commas included) followed by its closing double quote through unchanged. -/
theorem rTC_value_seg : ∀ (v rest : List Char),
    (∀ c ∈ v, validValueChar c = true) →
    removeTrailingComma (v ++ dquoteChar :: rest)
      = v ++ removeTrailingComma (dquoteChar :: rest) := by
  intro v
  induction v with
  | nil => intro rest _; rfl
  | cons c v ih =>
    intro rest h
    have hv := fun d hd => h d (List.mem_cons_of_mem c hd)
    by_cases hcc : c = ','
    · subst hcc
      rw [List.cons_append]
      rw [rTC_cons_comma _ (firstNonWs_shield v rest
        (fun d hd => (validValueChar_spec d (hv d hd)).2.2.2.2.2))]
      rw [ih rest hv]
      rfl
    · rw [List.cons_append, rTC_cons_ne c _ hcc, ih rest hv]
      rfl

/-- The trailing-comma removal passes a comma-free segment through. -/
theorem rTC_seg : ∀ (s X : List Char), (∀ c ∈ s, c ≠ ',') →
    removeTrailingComma (s ++ X) = s ++ removeTrailingComma X := by
  intro s
  induction s with
  | nil => intro X _; rfl
  | cons c s ih =>
    intro X h
    rw [List.cons_append, rTC_cons_ne c _ (h c (List.mem_cons_self c s)),
      ih X (fun e he => h e (List.mem_cons_of_mem c he))]
    rfl

/-- The trailing-comma removal passes one strict-JSON entry through. -/
theorem rTC_entry (kv : String × String) (rest2 : List Char)
    (hk : validKey kv.1 = true) (hv : validValue kv.2 = true) :
    removeTrailingComma (normEntryChars kv ++ rest2)
      = normEntryChars kv ++ removeTrailingComma rest2 := by
  obtain ⟨_, hk2⟩ := validKey_spec kv.1 hk
  have hv2 : ∀ c ∈ kv.2.toList, validValueChar c = true := by
    rw [validValue] at hv
    exact List.all_eq_true.mp hv
  have hpre : ∀ c ∈ (dquoteChar :: kv.1.toList ++ [dquoteChar, ':', ' ', dquoteChar]),
      c ≠ ',' := by
    intro c hc
    simp only [List.cons_append, List.mem_cons, List.mem_append] at hc
    rcases hc with rfl | hc | hc
    · decide
    · exact (isWordChar_spec c (hk2 c hc)).2.2.1
    · simp only [List.mem_cons, List.not_mem_nil, or_false] at hc
      rcases hc with rfl | rfl | rfl | rfl <;> decide
  have h1 : normEntryChars kv ++ rest2
      = (dquoteChar :: kv.1.toList ++ [dquoteChar, ':', ' ', dquoteChar]) ++
          (kv.2.toList ++ dquoteChar :: rest2) := by
    simp [normEntryChars, List.append_assoc]
  rw [h1, rTC_seg _ _ hpre, rTC_value_seg kv.2.toList rest2 hv2,
    rTC_cons_ne dquoteChar rest2 (by decide)]
  simp [normEntryChars, List.append_assoc]

/-- `normMembersChars` of a nonempty entry list starts with a double quote. -/
theorem normMembers_cons_head (kv : String × String) (tail : List (String × String)) :
    ∃ Y, normMembersChars (kv :: tail) = dquoteChar :: Y := by
  cases tail with
  | nil => exact ⟨_, rfl⟩
  | cons kv2 tail2 =>
    refine ⟨kv.1.toList ++ dquoteChar :: ':' :: ' ' :: dquoteChar ::
      (kv.2.toList ++ [dquoteChar]) ++ ',' :: ' ' :: normMembersChars (kv2 :: tail2), ?_⟩
    simp [normMembersChars, normEntryChars, List.append_assoc]

/-- The trailing-comma removal passes strict-JSON members through. -/
theorem rTC_members : ∀ (entries : List (String × String)) (rest2 : List Char),
    (∀ kv ∈ entries, validKey kv.1 = true) →
    (∀ kv ∈ entries, validValue kv.2 = true) →
    removeTrailingComma (normMembersChars entries ++ rest2)
      = normMembersChars entries ++ removeTrailingComma rest2 := by
  intro entries
  induction entries with
  | nil => intro rest2 _ _; rfl
  | cons kv tail ih =>
    intro rest2 hk hv
    cases tail with
    | nil =>
      simp only [normMembersChars]
      exact rTC_entry kv rest2 (hk kv (List.mem_cons_self kv []))
        (hv kv (List.mem_cons_self kv []))
    | cons kv2 tail2 =>
      simp only [normMembersChars]
      have h1 : (normEntryChars kv ++ ',' :: ' ' :: normMembersChars (kv2 :: tail2)) ++ rest2
          = normEntryChars kv ++ (',' :: ' ' :: (normMembersChars (kv2 :: tail2) ++ rest2)) := by
        simp [List.append_assoc]
      rw [h1, rTC_entry kv _ (hk kv (List.mem_cons_self kv (kv2 :: tail2)))
        (hv kv (List.mem_cons_self kv (kv2 :: tail2)))]
      obtain ⟨Y, hY⟩ := normMembers_cons_head kv2 tail2
      have hshield : ∀ d rest, (' ' :: (normMembersChars (kv2 :: tail2) ++ rest2)).dropWhile isWsJS
          = d :: rest → d ≠ closeBraceChar := by
        intro d rest hd
        rw [List.dropWhile_cons, if_pos (by decide : isWsJS ' ' = true)] at hd
        rw [hY, List.cons_append, List.dropWhile_cons,
          if_neg (by decide : ¬(isWsJS dquoteChar = true))] at hd
        have := (List.cons.injEq dquoteChar _ d rest).mp hd
        rw [← this.1]
        decide
      rw [rTC_cons_comma _ hshield]
      rw [rTC_cons_ne ' ' _ (by decide)]
      rw [ih rest2 (fun x hx => hk x (List.mem_cons_of_mem kv hx))
        (fun x hx => hv x (List.mem_cons_of_mem kv hx))]
      simp [List.append_assoc]

/-- The trailing-comma removal on a whole normalized literal removes exactly
the optional trailing comma. -/
theorem rTC_render (entries : List (String × String)) (tc : Bool)
    (hk : ∀ kv ∈ entries, validKey kv.1 = true)
    (hv : ∀ kv ∈ entries, validValue kv.2 = true) :
    removeTrailingComma
        (openBraceChar ::
          (normMembersChars entries ++
            ((if tc && !entries.isEmpty then [','] else []) ++ [closeBraceChar])))
      = openBraceChar :: (normMembersChars entries ++ [closeBraceChar]) := by
  rw [rTC_cons_ne openBraceChar _ (by decide)]
  cases entries with
  | nil =>
    simp only [normMembersChars, List.nil_append]
    cases tc <;> decide
  | cons kv tail =>
    rw [rTC_members (kv :: tail) _ hk hv]
    congr 1
    congr 1
    cases tc <;>
      · simp only [Bool.false_and, Bool.true_and, List.isEmpty_cons, Bool.not_false]
        decide

/-- The whole normalization chain turns a rendered literal (with either quote
style and an optional trailing comma) into the strict-JSON literal of the same
entries. -/
theorem normalize_render (q : Char) (entries : List (String × String)) (tc : Bool)
    (hq : q = aposChar ∨ q = dquoteChar)
    (hk : ∀ kv ∈ entries, validKey kv.1 = true)
    (hv : ∀ kv ∈ entries, validValue kv.2 = true) :
    normalizeLiteral (renderLiteralChars q entries tc)
      = openBraceChar :: (normMembersChars entries ++ [closeBraceChar]) := by
  rw [normalizeLiteral, quoteKeys_render q entries tc hq hk hv]
  have hm := replaceApos_members q entries hq hk hv
  simp only [replaceApos] at hm
  simp only [replaceApos, List.map_cons, List.map_append]
  rw [hm]
  have hif : List.map (fun c => if c = aposChar then dquoteChar else c)
      (if tc && !entries.isEmpty then [','] else [])
      = (if tc && !entries.isEmpty then [','] else []) := by
    by_cases htc : (tc && !entries.isEmpty) = true
    · rw [if_pos htc]
      decide
    · rw [if_neg htc]
      rfl
  rw [hif]
  simp only [List.map_nil]
  rw [(by decide : (if closeBraceChar = aposChar then dquoteChar else closeBraceChar)
    = closeBraceChar)]
  rw [(by decide : (if openBraceChar = aposChar then dquoteChar else openBraceChar)
    = openBraceChar)]
  exact rTC_render entries tc hk hv

/-- `String.mk` undoes `String.toList`. -/
theorem stringMk_toList (s : String) : String.mk s.toList = s := rfl

/-- JSON-whitespace skipping ignores an all-whitespace prefix. -/
theorem skipJsonWs_pre : ∀ (pre cs : List Char), (∀ c ∈ pre, isJsonWs c = true) →
    skipJsonWs (pre ++ cs) = skipJsonWs cs := by
  intro pre
  induction pre with
  | nil => intro cs _; rfl
  | cons c pre ih =>
    intro cs h
    rw [List.cons_append, skipJsonWs, List.dropWhile_cons,
      if_pos (h c (List.mem_cons_self c pre))]
    exact ih cs (fun d hd => h d (List.mem_cons_of_mem c hd))

/-- JSON-whitespace skipping stops at a non-whitespace character. -/
theorem skipJsonWs_nonws (c : Char) (cs : List Char) (h : isJsonWs c = false) :
    skipJsonWs (c :: cs) = c :: cs := by
  rw [skipJsonWs, List.dropWhile_cons]
  simp [h]

/-- JSON-whitespace skipping eats one whitespace character. -/
theorem skipJsonWs_ws (c : Char) (cs : List Char) (h : isJsonWs c = true) :
    skipJsonWs (c :: cs) = skipJsonWs cs := by
  rw [skipJsonWs, List.dropWhile_cons, if_pos h]
  rfl

/-- The JSON string-body parser consumes a run of plain characters up to the
closing double quote. -/
theorem parseJsonStringBody_plain : ∀ (s rest : List Char),
    (∀ c ∈ s, c ≠ dquoteChar ∧ c ≠ backslashChar ∧ ¬(c.toNat < 32)) →
    parseJsonStringBody (s ++ dquoteChar :: rest) = some (s, rest) := by
  intro s
  induction s with
  | nil =>
    intro rest _
    rw [List.nil_append, parseJsonStringBody.eq_def]
    simp
  | cons c s ih =>
    intro rest h
    obtain ⟨h1, h2, h3⟩ := h c (List.mem_cons_self c s)
    rw [List.cons_append, parseJsonStringBody.eq_def]
    simp [h1, h2, h3, ih rest (fun d hd => h d (List.mem_cons_of_mem c hd))]

/-- The JSON string-token parser on a plain-character body. -/
theorem parseJsonString_plain (s rest : List Char)
    (h : ∀ c ∈ s, c ≠ dquoteChar ∧ c ≠ backslashChar ∧ ¬(c.toNat < 32)) :
    parseJsonString (dquoteChar :: (s ++ dquoteChar :: rest)) = some (String.mk s, rest) := by
  rw [parseJsonString]
  simp [parseJsonStringBody_plain s rest h]

/-- The member parser consumes normalized strict-JSON members followed by the
closing brace, returning the entries in order (any JSON-whitespace prefix is
skipped; one fuel unit per member suffices). -/
theorem parseMembers_norm : ∀ (entries : List (String × String)) (f : Nat) (pre : List Char),
    entries ≠ [] → entries.length ≤ f + 1 →
    (∀ kv ∈ entries, validKey kv.1 = true) →
    (∀ kv ∈ entries, validValue kv.2 = true) →
    (∀ c ∈ pre, isJsonWs c = true) →
    parseMembers (f + 1) (pre ++ (normMembersChars entries ++ [closeBraceChar]))
      = some (entries, []) := by
  intro entries
  induction entries with
  | nil => intro f pre hne _ _ _ _; exact absurd rfl hne
  | cons kv tail ih =>
    intro f pre _ hlen hk hv hpre
    have hkk := hk kv (List.mem_cons_self kv tail)
    have hvv := hv kv (List.mem_cons_self kv tail)
    obtain ⟨_, hk2⟩ := validKey_spec kv.1 hkk
    have hv2 : ∀ c ∈ kv.2.toList, validValueChar c = true := by
      rw [validValue] at hvv
      exact List.all_eq_true.mp hvv
    have hkplain : ∀ c ∈ kv.1.toList, c ≠ dquoteChar ∧ c ≠ backslashChar ∧ ¬(c.toNat < 32) :=
      fun c hc => ⟨(isWordChar_spec c (hk2 c hc)).2.2.2.2.1,
        (isWordChar_spec c (hk2 c hc)).2.2.2.2.2.1, (isWordChar_spec c (hk2 c hc)).1⟩
    have hvplain : ∀ c ∈ kv.2.toList, c ≠ dquoteChar ∧ c ≠ backslashChar ∧ ¬(c.toNat < 32) :=
      fun c hc => ⟨(validValueChar_spec c (hv2 c hc)).2.2.2.1,
        (validValueChar_spec c (hv2 c hc)).2.2.2.2.1, (validValueChar_spec c (hv2 c hc)).1⟩
    cases tail with
    | nil =>
      have hshape : pre ++ (normMembersChars [kv] ++ [closeBraceChar])
          = pre ++ (dquoteChar :: (kv.1.toList ++ dquoteChar ::
              (':' :: (' ' :: (dquoteChar ::
                (kv.2.toList ++ dquoteChar :: [closeBraceChar])))))) := by
        simp [normMembersChars, normEntryChars, List.append_assoc]
      rw [hshape, parseMembers]
      rw [skipJsonWs_pre pre _ hpre]
      rw [skipJsonWs_nonws dquoteChar _ (by decide)]
      have e1 : skipJsonWs (':' :: (' ' :: (dquoteChar ::
            (kv.2.toList ++ dquoteChar :: [closeBraceChar]))))
          = ':' :: (' ' :: (dquoteChar :: (kv.2.toList ++ dquoteChar :: [closeBraceChar]))) :=
        skipJsonWs_nonws _ _ (by decide)
      have e2 : skipJsonWs (' ' :: (dquoteChar ::
            (kv.2.toList ++ dquoteChar :: [closeBraceChar])))
          = dquoteChar :: (kv.2.toList ++ dquoteChar :: [closeBraceChar]) := by
        rw [skipJsonWs_ws _ _ (by decide), skipJsonWs_nonws _ _ (by decide)]
      have e3 : parseJsonString (dquoteChar :: (kv.2.toList ++ dquoteChar :: [closeBraceChar]))
          = some (kv.2, [closeBraceChar]) := by
        rw [parseJsonString_plain kv.2.toList _ hvplain, stringMk_toList]
      have e4 : skipJsonWs [closeBraceChar] = [closeBraceChar] :=
        skipJsonWs_nonws _ _ (by decide)
      have e0 := parseJsonString_plain kv.1.toList
        (':' :: ' ' :: dquoteChar :: (kv.2.toList ++ [dquoteChar, closeBraceChar])) hkplain
      rw [stringMk_toList] at e0
      simp only [String.toList] at e0 e1 e2 e3 e4
      simp [e0, e1, e2, e3, e4, (by decide : closeBraceChar ≠ ',')]
    | cons kv2 tail2 =>
      cases f with
      | zero =>
        exfalso
        simp only [List.length_cons] at hlen
        omega
      | succ f2 =>
        have hshape : pre ++ (normMembersChars (kv :: kv2 :: tail2) ++ [closeBraceChar])
            = pre ++ (dquoteChar :: (kv.1.toList ++ dquoteChar ::
                (':' :: (' ' :: (dquoteChar :: (kv.2.toList ++ dquoteChar ::
                  (',' :: (' ' :: (normMembersChars (kv2 :: tail2) ++ [closeBraceChar]))))))))) := by
          simp only [normMembersChars]
          simp [normEntryChars, List.append_assoc]
        rw [hshape, parseMembers]
        rw [skipJsonWs_pre pre _ hpre]
        rw [skipJsonWs_nonws dquoteChar _ (by decide)]
        have e1 : skipJsonWs (':' :: (' ' :: (dquoteChar :: (kv.2.toList ++ dquoteChar ::
              (',' :: (' ' :: (normMembersChars (kv2 :: tail2) ++ [closeBraceChar])))))))
            = ':' :: (' ' :: (dquoteChar :: (kv.2.toList ++ dquoteChar ::
              (',' :: (' ' :: (normMembersChars (kv2 :: tail2) ++ [closeBraceChar])))))) :=
          skipJsonWs_nonws _ _ (by decide)
        have e2 : skipJsonWs (' ' :: (dquoteChar :: (kv.2.toList ++ dquoteChar ::
              (',' :: (' ' :: (normMembersChars (kv2 :: tail2) ++ [closeBraceChar]))))))
            = dquoteChar :: (kv.2.toList ++ dquoteChar ::
              (',' :: (' ' :: (normMembersChars (kv2 :: tail2) ++ [closeBraceChar])))) := by
          rw [skipJsonWs_ws _ _ (by decide), skipJsonWs_nonws _ _ (by decide)]
        have e3 : parseJsonString (dquoteChar :: (kv.2.toList ++ dquoteChar ::
              (',' :: (' ' :: (normMembersChars (kv2 :: tail2) ++ [closeBraceChar])))))
            = some (kv.2, ',' :: (' ' :: (normMembersChars (kv2 :: tail2) ++ [closeBraceChar]))) := by
          rw [parseJsonString_plain kv.2.toList _ hvplain, stringMk_toList]
        have e4 : skipJsonWs (',' :: (' ' :: (normMembersChars (kv2 :: tail2) ++ [closeBraceChar])))
            = ',' :: (' ' :: (normMembersChars (kv2 :: tail2) ++ [closeBraceChar])) :=
          skipJsonWs_nonws _ _ (by decide)
        have hlen2 : (kv2 :: tail2).length ≤ f2 + 1 := by
          simp only [List.length_cons] at hlen ⊢
          omega
        have e5 : parseMembers (f2 + 1)
              (' ' :: (normMembersChars (kv2 :: tail2) ++ [closeBraceChar]))
            = some (kv2 :: tail2, []) := by
          have h5 := ih f2 [' '] (List.cons_ne_nil kv2 tail2) hlen2
            (fun x hx => hk x (List.mem_cons_of_mem kv hx))
            (fun x hx => hv x (List.mem_cons_of_mem kv hx))
            (by intro c hc; simp only [List.mem_singleton] at hc; subst hc; decide)
          simpa using h5
        have e0 := parseJsonString_plain kv.1.toList
          (':' :: ' ' :: dquoteChar :: (kv.2.toList ++ dquoteChar :: ',' :: ' ' ::
            (normMembersChars (kv2 :: tail2) ++ [closeBraceChar]))) hkplain
        rw [stringMk_toList] at e0
        simp only [String.toList] at e0 e1 e2 e3 e4 e5
        simp [e0, e1, e2, e3, e4, e5]

/-- Setting an absent key appends. -/
theorem setKey_append : ∀ (m : List (String × String)) (k v : String),
    (∀ kv ∈ m, kv.1 ≠ k) → setKey m k v = m ++ [(k, v)] := by
  intro m
  induction m with
  | nil => intro k v _; rfl
  | cons kv m ih =>
    intro k v h
    rw [setKey]
    rw [if_neg (h kv (List.mem_cons_self kv m))]
    rw [ih k v (fun x hx => h x (List.mem_cons_of_mem kv hx))]
    rfl

/-- Folding `setKey` over entries with pairwise-distinct keys, starting from
a store disjoint from those keys, appends the entries in order. -/
theorem foldl_setKey : ∀ (entries acc : List (String × String)),
    (entries.map Prod.fst).Nodup →
    (∀ kv ∈ entries, ∀ kv2 ∈ acc, kv2.1 ≠ kv.1) →
    List.foldl (fun m kv => setKey m kv.1 kv.2) acc entries = acc ++ entries := by
  intro entries
  induction entries with
  | nil => intro acc _ _; simp
  | cons kv tail ih =>
    intro acc hnd hdisj
    simp only [List.map_cons, List.nodup_cons] at hnd
    simp only [List.foldl_cons]
    rw [setKey_append acc kv.1 kv.2
      (fun kv2 h2 => hdisj kv (List.mem_cons_self kv tail) kv2 h2)]
    rw [ih (acc ++ [(kv.1, kv.2)]) hnd.2 ?_]
    · simp
    · intro x hx kv2 h2
      rcases List.mem_append.mp h2 with h2 | h2
      · exact hdisj x (List.mem_cons_of_mem kv hx) kv2 h2
      · simp only [List.mem_singleton] at h2
        subst h2
        intro he
        exact hnd.1 (he ▸ List.mem_map_of_mem Prod.fst hx)

/-- With pairwise-distinct keys, building the object from parsed members is
the identity. -/
theorem objectify_nodup (entries : List (String × String))
    (h : (entries.map Prod.fst).Nodup) : objectify entries = entries := by
  rw [objectify]
  have hf := foldl_setKey entries [] h
    (by intro kv _ kv2 h2; exact absurd h2 (List.not_mem_nil kv2))
  simpa using hf

/-- Each entry occupies at least one character of the normalized members. -/
theorem length_le_normMembers : ∀ (entries : List (String × String)),
    entries.length ≤ (normMembersChars entries).length := by
  intro entries
  induction entries with
  | nil => simp [normMembersChars]
  | cons kv tail ih =>
    cases tail with
    | nil =>
      simp [normMembersChars, normEntryChars]
    | cons kv2 tail2 =>
      simp only [normMembersChars, List.length_cons, List.length_append] at ih ⊢
      omega

/-- `JSON.parse` (restricted to flat string objects) on the normalized
literal returns exactly the rendered entries. -/
theorem jsonParseFlat_norm (entries : List (String × String))
    (hk : ∀ kv ∈ entries, validKey kv.1 = true)
    (hv : ∀ kv ∈ entries, validValue kv.2 = true)
    (hnd : (entries.map Prod.fst).Nodup) :
    jsonParseFlat (openBraceChar :: (normMembersChars entries ++ [closeBraceChar]))
      = some entries := by
  cases entries with
  | nil => decide
  | cons kv tail =>
    obtain ⟨Y, hY⟩ := normMembers_cons_head kv tail
    rw [jsonParseFlat]
    set L := (openBraceChar :: (normMembersChars (kv :: tail) ++ [closeBraceChar])).length
      with hL
    have s1 : skipJsonWs (openBraceChar :: (normMembersChars (kv :: tail) ++ [closeBraceChar]))
        = openBraceChar :: (normMembersChars (kv :: tail) ++ [closeBraceChar]) :=
      skipJsonWs_nonws _ _ (by decide)
    have s2 : skipJsonWs (normMembersChars (kv :: tail) ++ [closeBraceChar])
        = dquoteChar :: (Y ++ [closeBraceChar]) := by
      rw [hY, List.cons_append]
      exact skipJsonWs_nonws _ _ (by decide)
    have hlen : (kv :: tail).length ≤ L + 1 := by
      have h1 := length_le_normMembers (kv :: tail)
      rw [hL]
      simp only [List.length_cons, List.length_append] at h1 ⊢
      omega
    have e5 := parseMembers_norm (kv :: tail) L []
      (List.cons_ne_nil kv tail) hlen hk hv
      (by intro c hc; exact absurd hc (List.not_mem_nil c))
    rw [List.nil_append] at e5
    have s0 : skipJsonWs ([] : List Char) = [] := rfl
    simp [s0, s1, s2, e5, (by decide : ¬(dquoteChar = closeBraceChar)),
      objectify_nodup (kv :: tail) hnd]

/-- Claim C5 (amended): for a raw flat object literal with unquoted
identifier keys, single- or double-quoted values, and an optional trailing
comma, parsing returns the corresponding key-to-string mapping PROVIDED the
value contents contain no colons, no quote characters of either kind, no
backslashes, no closing braces and no control characters: normalization then
only quotes the keys, converts the value quotes, and removes the trailing
comma.  Values containing colons or apostrophes are NOT preserved (see the
counterexample): the global replacements of lines 66-67 rewrite them and the
parse fails with `MalformedLiteral`.  The keys are additionally required to be
pairwise distinct and not integer-like (at least one non-digit character),
the regime in which the association-list model of JavaScript object iteration
order used here is faithful. -/
theorem c5_amended (q : Char) (entries : List (String × String)) (tc : Bool)
    (hq : q = aposChar ∨ q = dquoteChar)
    (hk : ∀ kv ∈ entries, validKey kv.1 = true)
    (hv : ∀ kv ∈ entries, validValue kv.2 = true)
    (hnd : (entries.map Prod.fst).Nodup)
    (_hni : ∀ kv ∈ entries, kv.1.toList.any (fun c => !c.isDigit) = true) :
    parseLiteral (renderLiteral q entries tc) = some entries := by
  rw [parseLiteral, renderLiteral]
  have ht : (String.mk (renderLiteralChars q entries tc)).toList
      = renderLiteralChars q entries tc := rfl
  rw [ht, normalize_render q entries tc hq hk hv]
  exact jsonParseFlat_norm entries hk hv hnd

/-- Concrete entries for the C5 witness. -/
def c5entries : List (String × String) := [("default", "p-4 m-2"), ("md", "p-6")]

/-- Witness for the amended claim C5: rendering
`{default: 'p-4 m-2', md: 'p-6',}` (single quotes, trailing comma) and
parsing it back yields exactly the two entries. -/
theorem c5_witness :
    ((aposChar = aposChar ∨ aposChar = dquoteChar)
      ∧ (∀ kv ∈ c5entries, validKey kv.1 = true)
      ∧ (∀ kv ∈ c5entries, validValue kv.2 = true)
      ∧ (c5entries.map Prod.fst).Nodup
      ∧ (∀ kv ∈ c5entries, kv.1.toList.any (fun c => !c.isDigit) = true))
    ∧ parseLiteral (renderLiteral aposChar c5entries true) = some c5entries :=
  ⟨⟨Or.inl rfl, by decide, by decide, by decide, by decide⟩,
    c5_amended aposChar c5entries true (Or.inl rfl) (by decide) (by decide)
      (by decide) (by decide)⟩
